import Mathlib

/-!
Verification of the Style Engine subsystem of the repository.

The repository provides the Style Engine only through its specification, its
PHP test suite (`phpunit/script-loader.php`) and a JavaScript caller
(`packages/block-editor/src/layouts/constrained.js`).  The engine itself
(Property Registry, Value Resolver, Rule Compiler, CSS Serializer, Store) is
therefore modelled here from the specification's words; the layout helper
`getLayoutStyle` is embedded directly from
`packages/block-editor/src/layouts/constrained.js`.
-/

namespace StyleEngine

/-- Modelled from the spec: a leaf declaration value is a literal string, a
number, or an absent value (JavaScript `null`/`undefined`, PHP `null`). -/
inductive LeafValue where
  | str (s : String)
  | num (n : Int)
  | null
deriving DecidableEq, Repr

/-- Modelled from the spec: a declaration value is either a leaf or a
structured box value `\x7btop, right, bottom, left\x7d`; absent sides are `none`. -/
inductive CSSValue where
  | leaf (v : LeafValue)
  | box (top right bottom left : Option LeafValue)
deriving DecidableEq, Repr

/-- Modelled from the spec: a PropertyDefinition maps a style key to its
camelCase CSS property name; box-capable properties additionally carry the
per-side property keys (top, right, bottom, left). -/
structure PropertyDefinition where
  key : String
  sideKeys : Option (String × String × String × String) := none
deriving DecidableEq, Repr

/-- Modelled from the spec: the static Property Registry covering color,
spacing (margin/padding per-side and shorthand), typography, border,
dimensions, and the `height` property exercised by the spec's concrete
end-to-end scenario. -/
def propertyRegistry : List PropertyDefinition :=
  [ ⟨"color", none⟩,
    ⟨"backgroundColor", none⟩,
    ⟨"background", none⟩,
    ⟨"margin", some ("marginTop", "marginRight", "marginBottom", "marginLeft")⟩,
    ⟨"marginTop", none⟩,
    ⟨"marginRight", none⟩,
    ⟨"marginBottom", none⟩,
    ⟨"marginLeft", none⟩,
    ⟨"padding", some ("paddingTop", "paddingRight", "paddingBottom", "paddingLeft")⟩,
    ⟨"paddingTop", none⟩,
    ⟨"paddingRight", none⟩,
    ⟨"paddingBottom", none⟩,
    ⟨"paddingLeft", none⟩,
    ⟨"fontSize", none⟩,
    ⟨"fontFamily", none⟩,
    ⟨"fontWeight", none⟩,
    ⟨"lineHeight", none⟩,
    ⟨"letterSpacing", none⟩,
    ⟨"textDecoration", none⟩,
    ⟨"textTransform", none⟩,
    ⟨"borderWidth", none⟩,
    ⟨"borderColor", none⟩,
    ⟨"borderStyle", none⟩,
    ⟨"borderRadius", none⟩,
    ⟨"minHeight", none⟩,
    ⟨"aspectRatio", none⟩,
    ⟨"height", none⟩ ]

/-- Modelled from the spec: Property Registry lookup,
`lookup(key) -> PropertyDefinition | NotFound`. -/
def lookup (k : String) : Option PropertyDefinition :=
  propertyRegistry.find? (fun pd => pd.key == k)

/-- Modelled from the spec: camelCase to kebab-case conversion on characters
(an upper-case letter becomes a hyphen followed by its lower case). -/
def kebabChars : List Char → List Char
  | [] => []
  | c :: rest =>
      if c.isUpper then '-' :: c.toLower :: kebabChars rest
      else c :: kebabChars rest

/-- Modelled from the spec: camelCase to kebab-case conversion on strings. -/
def kebabCase (s : String) : String :=
  String.mk (kebabChars s.data)

/-- Modelled from the spec: splitting a character list on the `|` separator
(PHP `explode`, JavaScript `split`). -/
def splitSegs : List Char → List (List Char)
  | [] => [[]]
  | c :: rest =>
      match splitSegs rest with
      | [] => [[]]
      | s :: ss => if c = '|' then [] :: s :: ss else (c :: s) :: ss

/-- Join a list of strings with a separator between consecutive elements. -/
def joinSep (sep : String) : List String → String
  | [] => ""
  | [x] => x
  | x :: xs => x ++ sep ++ joinSep sep xs

/-- Concatenate a list of strings. -/
def concatAll : List String → String
  | [] => ""
  | x :: xs => x ++ concatAll xs

/-- Modelled from the spec: reference-token rewrite.  The token body (after
the `var:` marker) is split on `|`, each segment kebab-cased, the segments
joined with `--`, and the result wrapped as `var(--wp--...)`. -/
def varBody (body : List Char) : String :=
  "var(--wp--" ++
    joinSep "--" ((splitSegs body).map (fun cs => kebabCase (String.mk cs))) ++
    ")"

/-- Modelled from the spec: a string value beginning with the `var:` marker is
a reference token and is rewritten; any other string passes through verbatim
(caller-supplied units preserved, no implicit px injection). -/
def resolveStr (s : String) : String :=
  match s.data with
  | 'v' :: 'a' :: 'r' :: ':' :: rest => varBody rest
  | _ => s

/-- Modelled from the spec: the Value Resolver,
`resolve(rawValue, definition) -> string | Omit` (`none` is Omit).  A value
that is empty, null or undefined yields Omit; numbers pass through with no
unit appended. -/
def resolve (v : LeafValue) (_pd : PropertyDefinition) : Option String :=
  match v with
  | .null => none
  | .str s => if s = "" then none else some (resolveStr s)
  | .num n => some (toString n)

/-- Modelled from the spec: a RuleRecord
`\x7bselector, key (camelCase CSS property), value (resolved CSS value)\x7d`. -/
structure RuleRecord where
  selector : String
  key : String
  value : String
deriving DecidableEq, Repr

/-- Modelled from the spec: a style descriptor as fed to the css-rules entry
point of the engine — an optional selector plus an ordered list of
(style key, value) declarations. -/
structure CSSRuleDescriptor where
  selector : Option String
  declarations : List (String × CSSValue)
deriving DecidableEq, Repr

/-- Modelled from the spec: StyleOptions
`\x7bselector: optional override, context: buffering bucket\x7d`. -/
structure StyleOptions where
  selector : Option String := none
  context : String := "block-supports"
deriving DecidableEq, Repr

/-- Modelled from the spec: the default root selector used when neither the
options nor the descriptor supply one. -/
def defaultRootSelector : String := ":root"

/-- Modelled from the spec: expansion of a structured box value into one
record per present side, using the registry's per-side keys and skipping
absent sides. -/
def sideRecords (sel : String) (pd : PropertyDefinition)
    (keysides : String × String × String × String)
    (top right bottom left : Option LeafValue) : List RuleRecord :=
  [(keysides.1, top), (keysides.2.1, right),
   (keysides.2.2.1, bottom), (keysides.2.2.2, left)].flatMap
    (fun p =>
      match p.2 with
      | none => []
      | some lv =>
          match resolve lv pd with
          | none => []
          | some s => [⟨sel, p.1, s⟩])

/-- Modelled from the spec: compilation of a single declaration.  Unknown
keys are silently skipped; leaf values resolve to at most one record; box
values expand per side when the property is box-capable and are otherwise
skipped as malformed. -/
def compileDecl (sel : String) (decl : String × CSSValue) : List RuleRecord :=
  match lookup decl.1 with
  | none => []
  | some pd =>
      match decl.2 with
      | .leaf lv =>
          match resolve lv pd with
          | none => []
          | some s => [⟨sel, decl.1, s⟩]
      | .box t r b l =>
          match pd.sideKeys with
          | none => []
          | some ks => sideRecords sel pd ks t r b l

/-- Modelled from the spec: the Rule Compiler,
`compile(descriptor, options) -> RuleRecord[]`; the selector is the options
override, else the descriptor's selector, else the default root selector. -/
def compile (d : CSSRuleDescriptor) (o : StyleOptions) : List RuleRecord :=
  let sel := (o.selector.getD (d.selector.getD defaultRootSelector))
  d.declarations.flatMap (compileDecl sel)

/-- Modelled from the spec: declaration upsert used by the serializer —
a record whose key already occurs keeps its first-seen position but takes the
later value (last-write-wins); a fresh key is appended. -/
def upsert : List (String × String) → String × String →
    List (String × String)
  | [], kv => [kv]
  | p :: rest, kv =>
      if p.1 == kv.1 then (p.1, kv.2) :: rest else p :: upsert rest kv

/-- Modelled from the spec: last-write-wins deduplication of a declaration
list, preserving first-seen key order. -/
def dedupLWW (ds : List (String × String)) : List (String × String) :=
  ds.foldl upsert []

/-- Modelled from the spec: grouping step — a record joins the block of its
selector when one exists (upserting its declaration) and otherwise opens a
new block at the end. -/
def groupStep (acc : List (String × List (String × String))) (r : RuleRecord) :
    List (String × List (String × String)) :=
  if acc.any (fun g => g.1 == r.selector) then
    acc.map (fun g =>
      if g.1 == r.selector then (g.1, upsert g.2 (r.key, r.value)) else g)
  else acc ++ [(r.selector, [(r.key, r.value)])]

/-- Modelled from the spec: one declaration rendered as `key:value;` with the
key kebab-cased and no internal whitespace. -/
def renderDecl (p : String × String) : String :=
  kebabCase p.1 ++ ":" ++ p.2 ++ ";"

/-- Modelled from the spec: one rule block rendered as
`selector\x7bdecl1;decl2;...;\x7d` with no whitespace around braces. -/
def renderBlock (g : String × List (String × String)) : String :=
  g.1 ++ "\x7b" ++ concatAll (g.2.map renderDecl) ++ "\x7d"

/-- Modelled from the spec: the CSS Serializer,
`serialize(records) -> string` — records grouped by selector in first-seen
order, declarations in first-seen order with last-write-wins values. -/
def serialize (rs : List RuleRecord) : String :=
  concatAll ((rs.foldl groupStep []).map renderBlock)

/-- Declarations (key, value pairs) of a record list, in order. -/
def declsOf (rs : List RuleRecord) : List (String × String) :=
  rs.map (fun r => (r.key, r.value))

/-- Body text of the single rule block formed by a record list. -/
def blockBody (rs : List RuleRecord) : String :=
  concatAll ((dedupLWW (declsOf rs)).map renderDecl)

/-- Value stored under a key in a declaration list. -/
def lookupVal (ds : List (String × String)) (k : String) : Option String :=
  (ds.find? (fun p => p.1 == k)).map (fun p => p.2)

/-- Modelled from the spec: the Store — a mapping from context name to an
ordered sequence of CSS-text fragments, contexts kept in first-insert
order. -/
abbrev Store := List (String × List String)

/-- The empty Store (process start). -/
def emptyStore : Store := []

/-- Modelled from the spec: `insert(context, cssText)` appends the text to
the context's ordered fragment sequence, creating the bucket if absent; it is
a no-op when the text is empty. -/
def insert (st : Store) (ctx css : String) : Store :=
  if css = "" then st
  else if st.any (fun p => p.1 == ctx) then
    st.map (fun p => if p.1 == ctx then (p.1, p.2 ++ [css]) else p)
  else st ++ [(ctx, [css])]

/-- Fragments currently buffered for a context. -/
def storeFrags (st : Store) (ctx : String) : List String :=
  ((st.find? (fun p => p.1 == ctx)).map (fun p => p.2)).getD []

/-- Modelled from the spec: `flush(context)` returns the context's fragments
joined with newline and clears only that bucket. -/
def flush (st : Store) (ctx : String) : String × Store :=
  (joinSep "\n" (storeFrags st ctx),
   st.map (fun p => if p.1 == ctx then (p.1, []) else p))

/-- Modelled from the spec: `flushAll()` returns, for every non-empty
context, its fragments joined with newline in first-insert order of contexts,
then clears every bucket. -/
def flushAll (st : Store) : List (String × String) × Store :=
  ((st.filter (fun p => !p.2.isEmpty)).map (fun p => (p.1, joinSep "\n" p.2)),
   [])

/-- Replay of a sequence of (context, cssText) insert calls against a
store. -/
def insertAll (st : Store) (ops : List (String × String)) : Store :=
  ops.foldl (fun s p => insert s p.1 p.2) st

/-- Non-empty fragments inserted for a given context by a call sequence, in
insertion order. -/
def insertedFrags (ops : List (String × String)) (c : String) : List String :=
  (ops.filter (fun p => p.1 == c && !(p.2 == ""))).map (fun p => p.2)

/-- Contexts of the non-empty inserts of a call sequence, with repetition. -/
def neCtxs (ops : List (String × String)) : List String :=
  (ops.filter (fun p => !(p.2 == ""))).map (fun p => p.1)

/-- First occurrences of a list's elements, in order, given the elements
already seen. -/
def firstOccsAux (seen : List String) : List String → List String
  | [] => []
  | c :: rest =>
      if c ∈ seen then firstOccsAux seen rest
      else c :: firstOccsAux (c :: seen) rest

/-- First occurrences of a list's elements, in order. -/
def firstOccs (l : List String) : List String := firstOccsAux [] l

/-- The mapping the spec promises from `flushAll` after a sequence of
inserts: every context that received a non-empty insert, in first-insert
order, bound to its fragments joined with newline. -/
def groupedSpec (ops : List (String × String)) : List (String × String) :=
  (firstOccs (neCtxs ops)).map
    (fun c => (c, joinSep "\n" (insertedFrags ops c)))

end StyleEngine

namespace Layout

open StyleEngine

/-- JavaScript truthiness of an optional string: `undefined`/`null` and the
empty string are falsy. -/
def jsTruthy : Option String → Bool
  | none => false
  | some s => !(s == "")

/-- JavaScript rendering of a possibly-undefined string inside a template
literal. -/
def optStr : Option String → String
  | none => "undefined"
  | some s => s

/-- JavaScript nullish coalescing `x ?? y` on optional strings (the empty
string is not nullish). -/
def nullish (x y : Option String) : Option String :=
  match x with
  | some s => some s
  | none => y

/-- Arguments of `getLayoutStyle` in
`packages/block-editor/src/layouts/constrained.js`: the destructured fields
of `layout`, the truthiness-relevant part of `style`, and the block-gap
support flag. -/
structure GetLayoutStyleArgs where
  selector : String
  contentSize : Option String := none
  wideSize : Option String := none
  justifyContent : Option String := none
  stylePadding : Option String := none
  hasBlockGapSupport : Bool := false

/-- Embedding of `getLayoutStyle` from
`packages/block-editor/src/layouts/constrained.js` (lines 141-234).
Modelled from the spec: the helpers `appendSelectors`, `getBlockGapCSS`,
`getCSSRules` and the block-gap value computed through `getGapCSSValue` and
`shouldSkipSerialization` live in modules outside the provided sources and
are passed here as parameters (`cssRules` is the result of
`getCSSRules(style)`, `blockGapCSS` the result of `getBlockGapCSS(...)`). -/
def getLayoutStyle (appendSelectors : String → String → String)
    (cssRules : List RuleRecord) (blockGapValue : String)
    (blockGapCSS : String) (a : GetLayoutStyleArgs) : String :=
  let marginLeft :=
    if a.justifyContent == some "left" then "0 !important"
    else "auto !important"
  let marginRight :=
    if a.justifyContent == some "right" then "0 !important"
    else "auto !important"
  let output :=
    if jsTruthy a.contentSize || jsTruthy a.wideSize then
      "\n\t\t\t\t\t" ++
        appendSelectors a.selector
          "> :where(:not(.alignleft):not(.alignright):not(.alignfull))" ++
        " \x7b\n\t\t\t\t\t\tmax-width: " ++
        optStr (nullish a.contentSize a.wideSize) ++
        ";\n\t\t\t\t\t\tmargin-left: " ++ marginLeft ++
        ";\n\t\t\t\t\t\tmargin-right: " ++ marginRight ++
        "t;\n\t\t\t\t\t\x7d\n\t\t\t\t\t" ++
        appendSelectors a.selector "> .alignwide" ++
        "  \x7b\n\t\t\t\t\t\tmax-width: " ++
        optStr (nullish a.wideSize a.contentSize) ++
        ";\n\t\t\t\t\t\x7d\n\t\t\t\t\t" ++
        appendSelectors a.selector "> .alignfull" ++
        " \x7b\n\t\t\t\t\t\tmax-width: none;\n\t\t\t\t\t\x7d\n\t\t\t\t"
    else ""
  let output :=
    if a.justifyContent == some "left" then
      output ++
        appendSelectors a.selector
          "> :where(:not(.alignleft):not(.alignright):not(.alignfull))" ++
        "\n\t\t\t\x7b margin-left: " ++ marginLeft ++ "; \x7d"
    else if a.justifyContent == some "right" then
      output ++
        appendSelectors a.selector
          "> :where(:not(.alignleft):not(.alignright):not(.alignfull))" ++
        "\n\t\t\t\x7b margin-right: " ++ marginRight ++ "; \x7d"
    else output
  let output :=
    if jsTruthy a.stylePadding then
      cssRules.foldl
        (fun out rule =>
          if rule.key == "paddingRight" then
            out ++ "\n\t\t\t\t\t" ++
              appendSelectors a.selector "> .alignfull" ++
              " \x7b\n\t\t\t\t\t\tmargin-right: calc(" ++ rule.value ++
              " * -1);\n\t\t\t\t\t\x7d\n\t\t\t\t\t"
          else if rule.key == "paddingLeft" then
            out ++ "\n\t\t\t\t\t" ++
              appendSelectors a.selector "> .alignfull" ++
              " \x7b\n\t\t\t\t\t\tmargin-left: calc(" ++ rule.value ++
              " * -1);\n\t\t\t\t\t\x7d\n\t\t\t\t\t"
          else out)
        output
    else output
  let output :=
    if a.hasBlockGapSupport && !(blockGapValue == "") then
      output ++ blockGapCSS
    else output
  output

end Layout

namespace StyleEngine

/-- Declarations whose key is unknown to the registry contribute nothing to a
compile. -/
theorem flatMap_compileDecl_filter (sel : String)
    (decls : List (String × CSSValue)) :
    decls.flatMap (compileDecl sel) =
      (decls.filter (fun p => (lookup p.1).isSome)).flatMap
        (compileDecl sel) := by
  induction decls with
  | nil => rfl
  | cons p rest ih =>
      cases h : lookup p.1 with
      | none =>
          simp only [List.flatMap_cons, List.filter_cons, h, Option.isSome_none,
            Bool.false_eq_true, if_false, ih]
          have hp : compileDecl sel p = [] := by
            unfold compileDecl
            rw [h]
          rw [hp, List.nil_append]
      | some pd =>
          simp only [List.flatMap_cons, List.filter_cons, h, Option.isSome_some,
            if_true, List.flatMap_cons, ih]

/-- C1: for the descriptor with selector `.a` and declarations
`color: white, height: 100px, borderStyle: solid`, compile followed by
serialize yields exactly `.a\x7bcolor:white;height:100px;border-style:solid;\x7d`;
inserting that string into context `ctx1` and flushing `ctx1` returns exactly
that string, and a second flush of `ctx1` returns empty. -/
theorem c1_end_to_end :
    serialize (compile ⟨some ".a",
        [("color", .leaf (.str "white")), ("height", .leaf (.str "100px")),
         ("borderStyle", .leaf (.str "solid"))]⟩ {}) =
      ".a\x7bcolor:white;height:100px;border-style:solid;\x7d"
    ∧ (flush (insert emptyStore "ctx1"
          (serialize (compile ⟨some ".a",
            [("color", .leaf (.str "white")), ("height", .leaf (.str "100px")),
             ("borderStyle", .leaf (.str "solid"))]⟩ {}))) "ctx1").1 =
      ".a\x7bcolor:white;height:100px;border-style:solid;\x7d"
    ∧ (flush (flush (insert emptyStore "ctx1"
          (serialize (compile ⟨some ".a",
            [("color", .leaf (.str "white")), ("height", .leaf (.str "100px")),
             ("borderStyle", .leaf (.str "solid"))]⟩ {}))) "ctx1").2
        "ctx1").1 = "" := by
  refine ⟨by decide, by decide, by decide⟩

/-- C6: serialize and compile are deterministic — two evaluations on
identical inputs yield byte-identical outputs, for compiled descriptors and
for arbitrary record sequences alike. -/
theorem c6_serialize_deterministic :
    (∀ (d : CSSRuleDescriptor) (o : StyleOptions),
        serialize (compile d o) = serialize (compile d o))
    ∧ (∀ rs : List RuleRecord, serialize rs = serialize rs) :=
  ⟨fun _ _ => rfl, fun _ => rfl⟩

/-- C7: a descriptor key absent from the Property Registry is silently
skipped — compiling any descriptor equals compiling it with the unknown keys
removed, so no record is emitted for them and no error is raised — and the
concrete descriptor `.b \x7bbogusProp: x, color: red\x7d` serializes to
`.b\x7bcolor:red;\x7d`. -/
theorem c7_unknown_key_tolerance :
    (∀ (d : CSSRuleDescriptor) (o : StyleOptions),
        compile d o =
          compile
            ⟨d.selector,
             d.declarations.filter (fun p => (lookup p.1).isSome)⟩ o)
    ∧ serialize (compile ⟨some ".b",
        [("bogusProp", .leaf (.str "x")), ("color", .leaf (.str "red"))]⟩ {}) =
      ".b\x7bcolor:red;\x7d" := by
  constructor
  · intro d o
    simp only [compile]
    exact flatMap_compileDecl_filter _ _
  · decide

/-- C8: the resolver yields Omit exactly for the empty string and for
null/undefined; the compiler then emits no record for such a leaf, while the
literal string `0` and the number `0` resolve to present values and do
produce a record. -/
theorem c8_omit_contract :
    (∀ (v : LeafValue) (pd : PropertyDefinition),
        resolve v pd = none ↔ v = .str "" ∨ v = .null)
    ∧ (∀ pd : PropertyDefinition, resolve (.str "0") pd = some "0")
    ∧ (∀ pd : PropertyDefinition, resolve (.num 0) pd = some "0")
    ∧ (∀ (sel k : String) (v : LeafValue),
        (v = .str "" ∨ v = .null) → compileDecl sel (k, .leaf v) = [])
    ∧ compileDecl ".z" ("color", .leaf (.str "0")) = [⟨".z", "color", "0"⟩]
    ∧ compileDecl ".z" ("height", .leaf (.num 0)) = [⟨".z", "height", "0"⟩] := by
  have hnone : ∀ (v : LeafValue) (pd : PropertyDefinition),
      resolve v pd = none ↔ v = .str "" ∨ v = .null := by
    intro v pd
    cases v with
    | str s =>
        by_cases h : s = "" <;> simp [resolve, h]
    | num n => simp [resolve]
    | null => simp [resolve]
  refine ⟨hnone, fun _ => rfl, fun _ => rfl, ?_, by decide, by decide⟩
  intro sel k v hv
  unfold compileDecl
  cases h : lookup k with
  | none => rfl
  | some pd =>
      have : resolve v pd = none := (hnone v pd).mpr hv
      simp [this]

/-- Witness for C8 at a concrete input: a null leaf under a known key
compiles to no record. -/
theorem c8_omit_contract_witness :
    compileDecl ".z" ("color", .leaf .null) = [] :=
  c8_omit_contract.2.2.2.1 ".z" "color" .null (Or.inr rfl)

end StyleEngine

namespace Layout

/-- An absent optional string is falsy. -/
theorem jsTruthy_none : jsTruthy none = false := rfl

/-- C10: when neither contentSize nor wideSize is truthy, justification is
neither left nor right, there is no spacing padding, and block-gap support is
off or the resolved block-gap value is empty, `getLayoutStyle` returns the
empty string. -/
theorem c10_layout_empty
    (appendSelectors : String → String → String)
    (cssRules : List StyleEngine.RuleRecord)
    (blockGapValue blockGapCSS : String) (a : GetLayoutStyleArgs)
    (h1 : jsTruthy a.contentSize = false)
    (h2 : jsTruthy a.wideSize = false)
    (h3 : a.justifyContent ≠ some "left")
    (h4 : a.justifyContent ≠ some "right")
    (h5 : a.stylePadding = none)
    (h6 : a.hasBlockGapSupport = false ∨ blockGapValue = "") :
    getLayoutStyle appendSelectors cssRules blockGapValue blockGapCSS a =
      "" := by
  have h3b : (a.justifyContent == some "left") = false := by
    simpa using h3
  have h4b : (a.justifyContent == some "right") = false := by
    simpa using h4
  rcases h6 with h6 | h6 <;>
    simp [getLayoutStyle, h1, h2, h3b, h4b, h5, h6, jsTruthy_none]

/-- Witness for C10 at a concrete input: with every feature absent the
layout style is empty. -/
theorem c10_layout_empty_witness :
    getLayoutStyle (fun a b => a ++ " " ++ b) [] "" ""
      ⟨".wp-block", none, none, some "center", none, true⟩ = "" :=
  c10_layout_empty _ _ _ _ _ rfl rfl (by decide) (by decide) rfl (Or.inr rfl)

end Layout

namespace StyleEngine

/-- Clearing a context's bucket leaves it with no fragments. -/
theorem storeFrags_map_clear (st : Store) (c : String) :
    storeFrags
      (st.map (fun p => if p.1 == c then (p.1, ([] : List String)) else p))
      c = [] := by
  induction st with
  | nil => rfl
  | cons p rest ih =>
      by_cases hp : (p.1 == c) = true
      · have hp' : p.1 = c := by simpa using hp
        simp [List.map_cons, storeFrags, List.find?_cons, hp, hp']
      · simp only [List.map_cons, if_neg hp, storeFrags] at ih ⊢
        simp only [List.find?_cons, hp, Bool.false_eq_true, if_false]
        exact ih

/-- Clearing one context's bucket leaves every other context's fragments
unchanged. -/
theorem storeFrags_map_clear_other (st : Store) (c c' : String)
    (h : c' ≠ c) :
    storeFrags
      (st.map (fun p => if p.1 == c then (p.1, ([] : List String)) else p))
      c' = storeFrags st c' := by
  induction st with
  | nil => rfl
  | cons p rest ih =>
      by_cases hp : (p.1 == c') = true
      · have hp' : p.1 = c' := by simpa using hp
        have hpc : (p.1 == c) = false := by simp [hp', h]
        have hpc' : ¬(p.1 = c) := by simpa using hpc
        simp [List.map_cons, hpc, hpc', storeFrags, List.find?_cons, hp]
      · by_cases hpc : (p.1 == c) = true
        · simp only [List.map_cons, if_pos hpc, storeFrags] at ih ⊢
          simp only [List.find?_cons, hp, Bool.false_eq_true, if_false]
          exact ih
        · simp only [List.map_cons, if_neg hpc, storeFrags] at ih ⊢
          simp only [List.find?_cons, hp, Bool.false_eq_true, if_false]
          exact ih

/-- C3: for every Store state and context, flush returns all of that
context's fragments (all-or-nothing, never a partial flush), leaves the
flushed context with no residual fragments, and leaves every other context's
fragment sequence unchanged. -/
theorem c3_flush_frame (st : Store) (c c' : String) (h : c' ≠ c) :
    (flush st c).1 = joinSep "\n" (storeFrags st c)
    ∧ storeFrags (flush st c).2 c = []
    ∧ storeFrags (flush st c).2 c' = storeFrags st c' :=
  ⟨rfl, storeFrags_map_clear st c, storeFrags_map_clear_other st c c' h⟩

/-- Witness for C3 at a concrete store: flushing `a` returns its joined
fragments, empties `a`, and leaves `b` untouched. -/
theorem c3_flush_frame_witness :
    (flush [("a", ["x", "y"]), ("b", ["z"])] "a").1 =
        joinSep "\n" (storeFrags [("a", ["x", "y"]), ("b", ["z"])] "a")
    ∧ storeFrags (flush [("a", ["x", "y"]), ("b", ["z"])] "a").2 "a" = []
    ∧ storeFrags (flush [("a", ["x", "y"]), ("b", ["z"])] "a").2 "b" =
        storeFrags [("a", ["x", "y"]), ("b", ["z"])] "b" :=
  c3_flush_frame [("a", ["x", "y"]), ("b", ["z"])] "a" "b" (by decide)

/-- Every box-capable registry entry's per-side keys are themselves known to
the registry. -/
theorem registry_side_keys_known :
    propertyRegistry.all
      (fun pd =>
        match pd.sideKeys with
        | none => true
        | some ks =>
            (lookup ks.1).isSome && (lookup ks.2.1).isSome &&
              (lookup ks.2.2.1).isSome && (lookup ks.2.2.2).isSome) = true := by
  decide

/-- A record emitted by box expansion carries one of the four per-side
keys. -/
theorem mem_sideRecords_key {r : RuleRecord} {sel : String}
    {pd : PropertyDefinition} {ks : String × String × String × String}
    {t rr b l : Option LeafValue}
    (h : r ∈ sideRecords sel pd ks t rr b l) :
    r.key = ks.1 ∨ r.key = ks.2.1 ∨ r.key = ks.2.2.1 ∨ r.key = ks.2.2.2 := by
  simp only [sideRecords, List.mem_flatMap, List.mem_cons,
    List.not_mem_nil, or_false] at h
  obtain ⟨p, hp, hr⟩ := h
  obtain ⟨k0, v0⟩ := p
  have hkey : r.key = k0 := by
    cases v0 with
    | none => simp at hr
    | some lv =>
        cases h3 : resolve lv pd with
        | none => simp [h3] at hr
        | some s =>
            simp only [h3, List.mem_singleton] at hr
            subst hr
            rfl
  rcases hp with hp | hp | hp | hp <;>
    · rw [Prod.mk.injEq] at hp
      rw [hkey, hp.1]
      simp

/-- C9: every RuleRecord produced by compile has a key recognized by the
Property Registry (no malformed record for unknown categories or
subproperties), and padding box values produce records carrying the literal
keys `paddingRight` and `paddingLeft` matched by the constrained-layout
consumer. -/
theorem c9_record_keys_registered :
    (∀ (d : CSSRuleDescriptor) (o : StyleOptions) (r : RuleRecord),
        r ∈ compile d o → (lookup r.key).isSome = true)
    ∧ (compile ⟨some ".p",
        [("padding",
          .box none (some (.str "1px")) none (some (.str "2px")))]⟩ {}).map
        (fun r => r.key) = ["paddingRight", "paddingLeft"] := by
  constructor
  · intro d o r hr
    simp only [compile, List.mem_flatMap] at hr
    obtain ⟨decl, _hdecl, hrd⟩ := hr
    unfold compileDecl at hrd
    cases hlk : lookup decl.1 with
    | none => simp [hlk] at hrd
    | some pd =>
        cases hv : decl.2 with
        | leaf lv =>
            cases hres : resolve lv pd with
            | none => simp [hlk, hv, hres] at hrd
            | some s =>
                simp only [hlk, hv, hres, List.mem_singleton] at hrd
                subst hrd
                simp [hlk]
        | box t rr b l =>
            cases hsk : pd.sideKeys with
            | none => simp [hlk, hv, hsk] at hrd
            | some ks =>
                simp only [hlk, hv, hsk] at hrd
                have hmem : pd ∈ propertyRegistry :=
                  List.mem_of_find?_eq_some hlk
                have hall := registry_side_keys_known
                rw [List.all_eq_true] at hall
                have hpd := hall pd hmem
                rw [hsk] at hpd
                simp only [Bool.and_eq_true] at hpd
                rcases mem_sideRecords_key hrd with hk | hk | hk | hk <;>
                  rw [hk]
                · exact hpd.1.1.1
                · exact hpd.1.1.2
                · exact hpd.1.2
                · exact hpd.2
  · decide

/-- Witness for C9 at a concrete input: the record compiled for `.a` color
carries a registry-known key. -/
theorem c9_record_keys_registered_witness :
    (lookup (RuleRecord.mk ".a" "color" "white").key).isSome = true :=
  c9_record_keys_registered.1 ⟨some ".a", [("color", .leaf (.str "white"))]⟩
    {} ⟨".a", "color", "white"⟩ (by decide)

/-- Splitting never yields an empty segment list. -/
theorem splitSegs_ne_nil (l : List Char) : splitSegs l ≠ [] := by
  induction l with
  | nil => simp [splitSegs]
  | cons c rest ih =>
      unfold splitSegs
      cases h : splitSegs rest with
      | nil => exact absurd h ih
      | cons s ss => by_cases hc : c = '|' <;> simp [hc]

/-- A separator-free character list splits into itself alone. -/
theorem splitSegs_no_pipe (l : List Char) (h : '|' ∉ l) :
    splitSegs l = [l] := by
  induction l with
  | nil => rfl
  | cons c rest ih =>
      have hc : c ≠ '|' := fun e => h (e ▸ List.mem_cons_self c rest)
      have hr : '|' ∉ rest := fun e => h (List.mem_cons_of_mem c e)
      simp [splitSegs, ih hr, hc]

/-- Splitting peels off a separator-free head segment. -/
theorem splitSegs_append_pipe (l1 l2 : List Char) (h : '|' ∉ l1) :
    splitSegs (l1 ++ '|' :: l2) = l1 :: splitSegs l2 := by
  induction l1 with
  | nil =>
      cases h2 : splitSegs l2 with
      | nil => exact absurd h2 (splitSegs_ne_nil l2)
      | cons s ss => simp [splitSegs, h2]
  | cons c rest ih =>
      have hc : c ≠ '|' := fun e => h (e ▸ List.mem_cons_self c rest)
      have hr : '|' ∉ rest := fun e => h (List.mem_cons_of_mem c e)
      simp [splitSegs, ih hr, hc]

/-- Resolution of a three-segment reference token with separator-free
segments: the segments are kebab-cased and joined with `--` inside
`var(--wp--...)`. -/
theorem resolve_var_token (pre t s : String) (pd : PropertyDefinition)
    (hpre : '|' ∉ pre.data) (ht : '|' ∉ t.data) (hs : '|' ∉ s.data) :
    resolve (.str ("var:" ++ pre ++ "|" ++ t ++ "|" ++ s)) pd =
      some ("var(--wp--" ++ kebabCase pre ++ "--" ++ kebabCase t ++ "--" ++
        kebabCase s ++ ")") := by
  have hS : ("var:" ++ pre ++ "|" ++ t ++ "|" ++ s : String).data =
      'v' :: 'a' :: 'r' :: ':' ::
        (pre.data ++ '|' :: (t.data ++ '|' :: s.data)) := by
    simp [String.data_append, List.append_assoc]
  have hne : ("var:" ++ pre ++ "|" ++ t ++ "|" ++ s : String) ≠ "" := by
    intro e
    rw [e] at hS
    simp at hS
  have hRS : resolveStr ("var:" ++ pre ++ "|" ++ t ++ "|" ++ s) =
      varBody (pre.data ++ '|' :: (t.data ++ '|' :: s.data)) := by
    unfold resolveStr
    rw [hS]
    rfl
  have hsplit : splitSegs (pre.data ++ '|' :: (t.data ++ '|' :: s.data)) =
      [pre.data, t.data, s.data] := by
    rw [splitSegs_append_pipe _ _ hpre, splitSegs_append_pipe _ _ ht,
      splitSegs_no_pipe _ hs]
  have hmk : ∀ u : String, String.mk u.data = u := fun _ => rfl
  have hvb : varBody (pre.data ++ '|' :: (t.data ++ '|' :: s.data)) =
      "var(--wp--" ++ kebabCase pre ++ "--" ++ kebabCase t ++ "--" ++
        kebabCase s ++ ")" := by
    rw [varBody, hsplit]
    simp only [List.map_cons, List.map_nil, hmk, joinSep]
    simp [String.append_assoc]
  simp only [resolve, if_neg hne, hRS, hvb]

/-- C4: a reference token `var:preset|TYPE|SLUG` resolves to
`var(--wp--preset--TYPE--SLUG)` and `var:custom|a|b` to
`var(--wp--custom--a--b)` — the token is split on `|`, each segment
kebab-cased, and the segments joined with `--`; in particular the two
concrete tokens of the spec resolve to their expected custom properties. -/
theorem c4_reference_token_rewrite :
    (∀ (t s : String) (pd : PropertyDefinition),
        '|' ∉ t.data → '|' ∉ s.data →
        resolve (.str ("var:preset|" ++ t ++ "|" ++ s)) pd =
          some ("var(--wp--preset--" ++ kebabCase t ++ "--" ++ kebabCase s ++
            ")"))
    ∧ (∀ (t s : String) (pd : PropertyDefinition),
        '|' ∉ t.data → '|' ∉ s.data →
        resolve (.str ("var:custom|" ++ t ++ "|" ++ s)) pd =
          some ("var(--wp--custom--" ++ kebabCase t ++ "--" ++ kebabCase s ++
            ")"))
    ∧ (∀ pd : PropertyDefinition,
        resolve (.str "var:preset|color|vivid-red") pd =
          some "var(--wp--preset--color--vivid-red)")
    ∧ (∀ pd : PropertyDefinition,
        resolve (.str "var:custom|spacing|small") pd =
          some "var(--wp--custom--spacing--small)") := by
  refine ⟨?_, ?_, fun _ => rfl, fun _ => rfl⟩
  · intro t s pd ht hs
    have h := resolve_var_token "preset" t s pd (by decide) ht hs
    rw [show ("var:" ++ "preset" ++ "|" : String) = "var:preset|" from
      by decide] at h
    rw [show kebabCase "preset" = "preset" from by decide] at h
    rw [show ("var(--wp--" ++ "preset" ++ "--" : String) = "var(--wp--preset--"
      from by decide] at h
    exact h
  · intro t s pd ht hs
    have h := resolve_var_token "custom" t s pd (by decide) ht hs
    rw [show ("var:" ++ "custom" ++ "|" : String) = "var:custom|" from
      by decide] at h
    rw [show kebabCase "custom" = "custom" from by decide] at h
    rw [show ("var(--wp--" ++ "custom" ++ "--" : String) = "var(--wp--custom--"
      from by decide] at h
    exact h

/-- Witness for C4 at concrete segments: the color preset token resolves to
its custom-property reference. -/
theorem c4_reference_token_rewrite_witness :
    resolve (.str ("var:preset|" ++ "color" ++ "|" ++ "vivid-red"))
        ⟨"color", none⟩ =
      some ("var(--wp--preset--" ++ kebabCase "color" ++ "--" ++
        kebabCase "vivid-red" ++ ")") :=
  c4_reference_token_rewrite.1 "color" "vivid-red" ⟨"color", none⟩
    (by decide) (by decide)

/-- First-occurrence extraction over a snoc. -/
theorem firstOccsAux_append (seen l : List String) (c : String) :
    firstOccsAux seen (l ++ [c]) =
      firstOccsAux seen l ++ (if c ∈ seen ∨ c ∈ l then [] else [c]) := by
  induction l generalizing seen with
  | nil => by_cases hc : c ∈ seen <;> simp [firstOccsAux, hc]
  | cons a l ih =>
      by_cases ha : a ∈ seen
      · have hiff : (c ∈ seen ∨ c ∈ a :: l) ↔ (c ∈ seen ∨ c ∈ l) := by
          constructor
          · rintro (h | h)
            · exact Or.inl h
            · rcases List.mem_cons.mp h with rfl | h
              · exact Or.inl ha
              · exact Or.inr h
          · rintro (h | h)
            · exact Or.inl h
            · exact Or.inr (List.mem_cons_of_mem _ h)
        rw [List.cons_append, firstOccsAux, if_pos ha, ih, firstOccsAux,
          if_pos ha]
        by_cases hc : c ∈ seen ∨ c ∈ l
        · rw [if_pos hc, if_pos (hiff.mpr hc)]
        · rw [if_neg hc, if_neg (fun h => hc (hiff.mp h))]
      · have hiff : (c ∈ a :: seen ∨ c ∈ l) ↔ (c ∈ seen ∨ c ∈ a :: l) := by
          simp only [List.mem_cons]
          tauto
        rw [List.cons_append, firstOccsAux, if_neg ha, ih, firstOccsAux,
          if_neg ha, List.cons_append]
        by_cases hc : c ∈ a :: seen ∨ c ∈ l
        · rw [if_pos hc, if_pos (hiff.mp hc)]
        · rw [if_neg hc, if_neg (fun h => hc (hiff.mpr h))]

/-- Membership in the first-occurrence extraction. -/
theorem mem_firstOccsAux {x : String} (seen l : List String) :
    x ∈ firstOccsAux seen l ↔ x ∉ seen ∧ x ∈ l := by
  induction l generalizing seen with
  | nil => simp [firstOccsAux]
  | cons a l ih =>
      by_cases ha : a ∈ seen
      · rw [firstOccsAux, if_pos ha, ih]
        constructor
        · rintro ⟨h1, h2⟩
          exact ⟨h1, List.mem_cons_of_mem _ h2⟩
        · rintro ⟨h1, h2⟩
          rcases List.mem_cons.mp h2 with rfl | h2
          · exact absurd ha h1
          · exact ⟨h1, h2⟩
      · rw [firstOccsAux, if_neg ha, List.mem_cons, ih]
        constructor
        · rintro (rfl | ⟨h1, h2⟩)
          · exact ⟨ha, List.mem_cons_self _ _⟩
          · refine ⟨fun hx => h1 (List.mem_cons_of_mem _ hx),
              List.mem_cons_of_mem _ h2⟩
        · rintro ⟨h1, h2⟩
          rcases List.mem_cons.mp h2 with rfl | h2
          · exact Or.inl rfl
          · by_cases hxa : x = a
            · exact Or.inl hxa
            · refine Or.inr ⟨fun hx => ?_, h2⟩
              rcases List.mem_cons.mp hx with rfl | hx
              · exact hxa rfl
              · exact h1 hx

/-- Fragments recorded for a context over a snoc of insert calls. -/
theorem insertedFrags_append (ops : List (String × String)) (c s x : String) :
    insertedFrags (ops ++ [(c, s)]) x =
      insertedFrags ops x ++ (if x = c ∧ s ≠ "" then [s] else []) := by
  unfold insertedFrags
  rw [List.filter_append, List.map_append]
  congr 1
  by_cases h1 : x = c
  · subst h1
    by_cases h2 : s = ""
    · simp [List.filter, h2]
    · have hb : (s == "") = false := by simp [h2]
      simp [List.filter, hb, h2]
  · have : (c == x) = false := by
      simp
      exact fun e => h1 e.symm
    simp [List.filter, this, h1]

/-- Non-empty-insert contexts over a snoc of insert calls. -/
theorem neCtxs_append (ops : List (String × String)) (c s : String) :
    neCtxs (ops ++ [(c, s)]) =
      neCtxs ops ++ (if s = "" then [] else [c]) := by
  unfold neCtxs
  rw [List.filter_append, List.map_append]
  congr 1
  by_cases h2 : s = ""
  · simp [List.filter, h2]
  · have hb : (s == "") = false := by simp [h2]
    simp [List.filter, hb, h2]

/-- A context with no non-empty insert has no recorded fragments. -/
theorem insertedFrags_eq_nil (ops : List (String × String)) (c : String)
    (h : c ∉ neCtxs ops) : insertedFrags ops c = [] := by
  rw [insertedFrags, List.map_eq_nil_iff, List.filter_eq_nil_iff]
  intro p hp hq
  apply h
  simp only [Bool.and_eq_true, beq_iff_eq, Bool.not_eq_eq_eq_not,
    Bool.not_true, beq_eq_false_iff_ne, ne_eq] at hq
  rw [neCtxs, List.mem_map]
  refine ⟨p, List.mem_filter.mpr ⟨hp, ?_⟩, hq.1⟩
  simp [hq.2]

/-- A context with a non-empty insert has recorded fragments. -/
theorem insertedFrags_ne_nil (ops : List (String × String)) (c : String)
    (h : c ∈ neCtxs ops) : insertedFrags ops c ≠ [] := by
  rw [neCtxs, List.mem_map] at h
  obtain ⟨p, hp, rfl⟩ := h
  have hp2 := (List.mem_filter.mp hp).2
  intro hnil
  rw [insertedFrags, List.map_eq_nil_iff, List.filter_eq_nil_iff] at hnil
  exact hnil p (List.mem_filter.mp hp).1 (by simp [hp2])

/-- Replaying a sequence of insert calls against the empty store yields
exactly the spec's grouped view: contexts in first-insert order, each bound
to its non-empty fragments in insertion order. -/
theorem insertAll_spec (ops : List (String × String)) :
    insertAll emptyStore ops =
      (firstOccs (neCtxs ops)).map (fun c => (c, insertedFrags ops c)) := by
  induction ops using List.reverseRecOn with
  | nil => rfl
  | append_singleton ops p ih =>
      obtain ⟨c, s⟩ := p
      have hstep : insertAll emptyStore (ops ++ [(c, s)]) =
          insert (insertAll emptyStore ops) c s := by
        simp [insertAll, List.foldl_append]
      rw [hstep, ih]
      by_cases hs : s = ""
      · subst hs
        rw [show insert ((firstOccs (neCtxs ops)).map
            (fun c => (c, insertedFrags ops c))) c "" =
          (firstOccs (neCtxs ops)).map (fun c => (c, insertedFrags ops c))
          from rfl]
        rw [neCtxs_append, if_pos rfl, List.append_nil]
        apply List.map_congr_left
        intro x _
        rw [insertedFrags_append]
        simp
      · have hctx : neCtxs (ops ++ [(c, s)]) = neCtxs ops ++ [c] := by
          rw [neCtxs_append, if_neg hs]
        by_cases hc : c ∈ neCtxs ops
        · have hfo : firstOccs (neCtxs (ops ++ [(c, s)])) =
              firstOccs (neCtxs ops) := by
            rw [hctx, firstOccs, firstOccsAux_append, firstOccs]
            simp [hc]
          have hany : ((firstOccs (neCtxs ops)).map
              (fun x => (x, insertedFrags ops x))).any
                (fun p => p.1 == c) = true := by
            rw [List.any_eq_true]
            have hcL : c ∈ firstOccs (neCtxs ops) :=
              (mem_firstOccsAux [] _).mpr ⟨List.not_mem_nil c, hc⟩
            exact ⟨(c, insertedFrags ops c),
              List.mem_map_of_mem _ hcL, by simp⟩
          rw [insert, if_neg hs, if_pos hany, List.map_map, hfo]
          apply List.map_congr_left
          intro x _
          simp only [Function.comp_apply]
          by_cases hxc : x = c
          · subst hxc
            rw [insertedFrags_append]
            simp [hs]
          · have hb : (x == c) = false := by simp [hxc]
            rw [insertedFrags_append]
            simp [hb, hxc]
        · have hfo : firstOccs (neCtxs (ops ++ [(c, s)])) =
              firstOccs (neCtxs ops) ++ [c] := by
            rw [hctx, firstOccs, firstOccsAux_append, firstOccs]
            simp [hc]
          have hany : ((firstOccs (neCtxs ops)).map
              (fun x => (x, insertedFrags ops x))).any
                (fun p => p.1 == c) = false := by
            rw [List.any_eq_false]
            intro p hp
            rw [List.mem_map] at hp
            obtain ⟨x, hx, rfl⟩ := hp
            have : x ∈ neCtxs ops := ((mem_firstOccsAux [] _).mp hx).2
            have hxc : x ≠ c := fun e => hc (e ▸ this)
            simp [hxc]
          rw [insert, if_neg hs, hany]
          simp only [Bool.false_eq_true, if_false]
          rw [hfo, List.map_append, List.map_singleton]
          congr 1
          · apply List.map_congr_left
            intro x hx
            have hmem : x ∈ neCtxs ops := ((mem_firstOccsAux [] _).mp hx).2
            have hxc : x ≠ c := fun e => hc (e ▸ hmem)
            rw [insertedFrags_append]
            simp [hxc]
          · rw [insertedFrags_append, insertedFrags_eq_nil ops c hc]
            simp [hs]

/-- Rendering the grouped store: every context's fragment list is non-empty,
so filtering empties away is the identity. -/
theorem flushAll_map_spec (L : List String) (F : String → List String)
    (h : ∀ c ∈ L, F c ≠ []) :
    (flushAll (L.map (fun c => (c, F c)))).1 =
      L.map (fun c => (c, joinSep "\n" (F c))) := by
  induction L with
  | nil => rfl
  | cons a L ih =>
      have ha : (F a).isEmpty = false := by
        rw [List.isEmpty_eq_false_iff_exists_mem]
        rcases List.exists_mem_of_ne_nil _ (h a (List.mem_cons_self a L)) with
          ⟨x, hx⟩
        exact ⟨x, hx⟩
      simp only [flushAll, List.map_cons, List.filter_cons, ha,
        Bool.not_false, if_true]
      have ih2 := ih (fun c hc => h c (List.mem_cons_of_mem a hc))
      simp only [flushAll] at ih2
      rw [ih2]

/-- Concatenation of strings distributes over list append. -/
theorem concatAll_append (l1 l2 : List String) :
    concatAll (l1 ++ l2) = concatAll l1 ++ concatAll l2 := by
  induction l1 with
  | nil => simp [concatAll, String.empty_append]
  | cons x l1 ih => simp [concatAll, ih, String.append_assoc]

/-- Upserting a key foreign to a prefix leaves the prefix untouched. -/
theorem upsert_append_of_not_mem (acc1 acc2 : List (String × String))
    (kv : String × String) (h : ∀ q ∈ acc1, kv.1 ≠ q.1) :
    upsert (acc1 ++ acc2) kv = acc1 ++ upsert acc2 kv := by
  induction acc1 with
  | nil => rfl
  | cons q acc1 ih =>
      have hq : kv.1 ≠ q.1 := h q (List.mem_cons_self q acc1)
      have hqb : (q.1 == kv.1) = false := by
        simp
        exact fun e => hq e.symm
      simp only [List.cons_append, upsert, hqb, Bool.false_eq_true, if_false]
      exact congrArg (q :: ·) (ih (fun p hp => h p (List.mem_cons_of_mem _ hp)))

/-- The keys after an upsert: unchanged when the key is present, appended
when fresh. -/
theorem keys_upsert (acc : List (String × String)) (kv : String × String) :
    (upsert acc kv).map (fun p => p.1) =
      if kv.1 ∈ acc.map (fun p => p.1) then acc.map (fun p => p.1)
      else acc.map (fun p => p.1) ++ [kv.1] := by
  induction acc with
  | nil => simp [upsert]
  | cons q acc ih =>
      by_cases hq : (q.1 == kv.1) = true
      · have hq2 : q.1 = kv.1 := by simpa using hq
        simp [upsert, hq, hq2, List.map_cons]
      · have hq2 : q.1 ≠ kv.1 := by simpa using hq
        simp only [upsert, hq, Bool.false_eq_true, if_false, List.map_cons,
          ih]
        by_cases hmem : kv.1 ∈ acc.map (fun p => p.1)
        · simp [hmem, List.mem_cons]
        · have hne : kv.1 ≠ q.1 := fun e => hq2 e.symm
          simp [hmem, List.mem_cons, hne]

/-- Folding upserts preserves distinctness of keys. -/
theorem keys_foldl_upsert_nodup (ds acc : List (String × String))
    (h : (acc.map (fun p => p.1)).Nodup) :
    ((ds.foldl upsert acc).map (fun p => p.1)).Nodup := by
  induction ds generalizing acc with
  | nil => exact h
  | cons kv ds ih =>
      rw [List.foldl_cons]
      apply ih
      rw [keys_upsert]
      by_cases hmem : kv.1 ∈ acc.map (fun p => p.1)
      · rw [if_pos hmem]
        exact h
      · rw [if_neg hmem, List.nodup_append]
        exact ⟨h, List.nodup_singleton _, fun a ha hb => by
          rw [List.mem_singleton] at hb
          exact hmem (hb ▸ ha)⟩

/-- Folding upserts introduces no key that was not in the base or in the
fold's input. -/
theorem keys_foldl_upsert_subset (ds acc : List (String × String))
    (k : String) (h : k ∈ (ds.foldl upsert acc).map (fun p => p.1)) :
    k ∈ acc.map (fun p => p.1) ∨ k ∈ ds.map (fun p => p.1) := by
  induction ds generalizing acc with
  | nil => exact Or.inl h
  | cons kv ds ih =>
      rw [List.foldl_cons] at h
      rcases ih _ h with h2 | h2
      · rw [keys_upsert] at h2
        by_cases hmem : kv.1 ∈ acc.map (fun p => p.1)
        · rw [if_pos hmem] at h2
          exact Or.inl h2
        · rw [if_neg hmem] at h2
          rcases List.mem_append.mp h2 with h3 | h3
          · exact Or.inl h3
          · rw [List.mem_singleton] at h3
            refine Or.inr ?_
            rw [List.map_cons, h3]
            exact List.mem_cons_self _ _
      · refine Or.inr ?_
        rw [List.map_cons]
        exact List.mem_cons_of_mem _ h2

/-- Last-write-wins: after upserting a pair, looking its key up returns the
new value. -/
theorem lookupVal_upsert (acc : List (String × String)) (k v : String) :
    lookupVal (upsert acc (k, v)) k = some v := by
  induction acc with
  | nil => simp [upsert, lookupVal, List.find?]
  | cons p acc ih =>
      by_cases hp : (p.1 == k) = true
      · simp [upsert, hp, lookupVal, List.find?]
      · have hstep :
            lookupVal (p :: upsert acc (k, v)) k =
              lookupVal (upsert acc (k, v)) k := by
          simp [lookupVal, List.find?_cons, hp]
        simp only [upsert, hp, Bool.false_eq_true, if_false]
        rw [hstep]
        exact ih

/-- Deduplication splits over an append when the two parts share no key. -/
theorem dedupLWW_append_disjoint (d1 d2 : List (String × String))
    (h : ∀ k, k ∈ d2.map (fun p => p.1) → k ∉ d1.map (fun p => p.1)) :
    dedupLWW (d1 ++ d2) = dedupLWW d1 ++ dedupLWW d2 := by
  have hgen : ∀ (ds acc1 acc2 : List (String × String)),
      (∀ p ∈ ds, ∀ q ∈ acc1, p.1 ≠ q.1) →
      ds.foldl upsert (acc1 ++ acc2) = acc1 ++ ds.foldl upsert acc2 := by
    intro ds
    induction ds with
    | nil => intro acc1 acc2 _; rfl
    | cons kv ds ih =>
        intro acc1 acc2 hd
        rw [List.foldl_cons, List.foldl_cons,
          upsert_append_of_not_mem _ _ _ (hd kv (List.mem_cons_self _ _))]
        exact ih _ _ (fun p hp => hd p (List.mem_cons_of_mem _ hp))
  have hd : ∀ p ∈ d2, ∀ q ∈ dedupLWW d1, p.1 ≠ q.1 := by
    intro p hp q hq e
    have hq1 : q.1 ∈ (dedupLWW d1).map (fun r => r.1) :=
      List.mem_map_of_mem _ hq
    have hq2 : q.1 ∈ d1.map (fun r => r.1) := by
      rcases keys_foldl_upsert_subset d1 [] q.1 hq1 with h0 | h0
      · simp at h0
      · exact h0
    exact h p.1 (List.mem_map_of_mem _ hp) (e ▸ hq2)
  have hsplit := hgen d2 (dedupLWW d1) [] hd
  rw [List.append_nil] at hsplit
  rw [dedupLWW, List.foldl_append]
  exact hsplit

/-- Folding the grouping step over records of a single selector extends that
selector's single block, upserting each declaration. -/
theorem foldl_groupStep_single (sel : String) (rs : List RuleRecord)
    (acc : List (String × String)) (h : ∀ r ∈ rs, r.selector = sel) :
    rs.foldl groupStep [(sel, acc)] =
      [(sel, rs.foldl (fun a r => upsert a (r.key, r.value)) acc)] := by
  induction rs generalizing acc with
  | nil => rfl
  | cons r rs ih =>
      have hr : r.selector = sel := h r (List.mem_cons_self r rs)
      rw [List.foldl_cons, List.foldl_cons]
      have hgs : groupStep [(sel, acc)] r =
          [(sel, upsert acc (r.key, r.value))] := by
        simp [groupStep, hr]
      rw [hgs]
      exact ih _ (fun q hq => h q (List.mem_cons_of_mem _ hq))

/-- Serialization of a non-empty single-selector record list is one rule
block whose body is the deduplicated declaration text. -/
theorem serialize_single (sel : String) (rs : List RuleRecord)
    (h : ∀ r ∈ rs, r.selector = sel) (hne : rs ≠ []) :
    serialize rs = sel ++ "\x7b" ++ blockBody rs ++ "\x7d" := by
  cases rs with
  | nil => exact absurd rfl hne
  | cons r rest =>
      have hr : r.selector = sel := h r (List.mem_cons_self _ _)
      have hh : ∀ q ∈ rest, q.selector = sel :=
        fun q hq => h q (List.mem_cons_of_mem _ hq)
      rw [serialize, List.foldl_cons]
      have h0 : groupStep [] r = [(sel, [(r.key, r.value)])] := by
        simp [groupStep, hr]
      rw [h0, foldl_groupStep_single sel rest _ hh]
      have hdm : rest.foldl (fun a q => upsert a (q.key, q.value))
          [(r.key, r.value)] = dedupLWW (declsOf (r :: rest)) := by
        simp only [dedupLWW, declsOf, List.map_cons, List.foldl_cons,
          List.foldl_map]
        rfl
      rw [hdm, blockBody]
      simp [renderBlock, concatAll, String.append_empty]

/-- C5: for two compiles sharing one selector, serializing the concatenated
records yields a single rule block — the textual concatenation of the two
separate blocks' bodies merged inside one `selector\x7b...\x7d` pair when no key
repeats — while a later record with the same selector and key collapses to
the later value (last-write-wins) and duplicate declarations never appear. -/
theorem c5_merge_law (d1 d2 : CSSRuleDescriptor) (o1 o2 : StyleOptions)
    (sel : String)
    (h1 : ∀ r ∈ compile d1 o1, r.selector = sel)
    (h2 : ∀ r ∈ compile d2 o2, r.selector = sel)
    (hne : compile d1 o1 ≠ []) :
    serialize (compile d1 o1 ++ compile d2 o2) =
      sel ++ "\x7b" ++ blockBody (compile d1 o1 ++ compile d2 o2) ++ "\x7d"
    ∧ serialize (compile d1 o1) =
      sel ++ "\x7b" ++ blockBody (compile d1 o1) ++ "\x7d"
    ∧ (compile d2 o2 ≠ [] →
        serialize (compile d2 o2) =
          sel ++ "\x7b" ++ blockBody (compile d2 o2) ++ "\x7d")
    ∧ ((∀ k, k ∈ (declsOf (compile d2 o2)).map (fun p => p.1) →
          k ∉ (declsOf (compile d1 o1)).map (fun p => p.1)) →
        blockBody (compile d1 o1 ++ compile d2 o2) =
          blockBody (compile d1 o1) ++ blockBody (compile d2 o2))
    ∧ ((dedupLWW (declsOf (compile d1 o1 ++ compile d2 o2))).map
        (fun p => p.1)).Nodup
    ∧ (∀ (ds : List (String × String)) (k v : String),
        lookupVal (dedupLWW (ds ++ [(k, v)])) k = some v) := by
  refine ⟨?_, ?_, ?_, ?_, ?_, ?_⟩
  · apply serialize_single
    · intro r hr
      rcases List.mem_append.mp hr with hm | hm
      · exact h1 r hm
      · exact h2 r hm
    · intro e
      exact hne (List.append_eq_nil.mp e).1
  · exact serialize_single sel _ h1 hne
  · intro hne2
    exact serialize_single sel _ h2 hne2
  · intro hdisj
    have hdecls : declsOf (compile d1 o1 ++ compile d2 o2) =
        declsOf (compile d1 o1) ++ declsOf (compile d2 o2) := by
      simp [declsOf]
    rw [blockBody, blockBody, blockBody, hdecls,
      dedupLWW_append_disjoint _ _ hdisj, List.map_append, concatAll_append]
  · exact keys_foldl_upsert_nodup _ [] (by simp)
  · intro ds k v
    rw [dedupLWW, List.foldl_append, List.foldl_cons, List.foldl_nil]
    exact lookupVal_upsert _ k v

/-- Witness for C5 at concrete descriptors: two single-declaration `.a`
descriptors merge into one rule block. -/
theorem c5_merge_law_witness :
    serialize (compile ⟨some ".a", [("color", .leaf (.str "white"))]⟩ {} ++
        compile ⟨some ".a", [("height", .leaf (.str "100px"))]⟩ {}) =
      ".a" ++ "\x7b" ++
        blockBody (compile ⟨some ".a", [("color", .leaf (.str "white"))]⟩ {} ++
          compile ⟨some ".a", [("height", .leaf (.str "100px"))]⟩ {}) ++
        "\x7d" :=
  (c5_merge_law ⟨some ".a", [("color", .leaf (.str "white"))]⟩
    ⟨some ".a", [("height", .leaf (.str "100px"))]⟩ {} {} ".a"
    (by decide) (by decide) (by decide)).1

/-- C2: after any sequence of insert calls on the empty store, flushAll
returns exactly the non-empty contexts in first-insert order, each mapped to
its inserted fragments joined with newline in insertion order (so its total
text is the grouped concatenation of every inserted fragment); a second
flushAll immediately after returns the empty mapping. -/
theorem c2_store_flush_exhaustive (ops : List (String × String)) :
    (flushAll (insertAll emptyStore ops)).1 = groupedSpec ops
    ∧ (flushAll ((flushAll (insertAll emptyStore ops)).2)).1 = [] := by
  refine ⟨?_, rfl⟩
  rw [insertAll_spec, groupedSpec]
  exact flushAll_map_spec _ _
    (fun c hc =>
      insertedFrags_ne_nil ops c ((mem_firstOccsAux [] _).mp hc).2)

end StyleEngine
